import Mathlib

/-!
Verification of the splashy whiteboard core (src/splashy.c) against its
natural-language specification.  The C code is shallowly embedded: pixel
buffers become functions from integer coordinates to natural pixel values,
C `int` becomes `ℤ`, C `double` becomes `ℚ` (exact arithmetic), and the
GTK/cairo collaborators are modelled only through the raster effects the
core relies on (clear-to-zero, source-over onto transparent, source copy).
-/

namespace Splashy

/-! ## Colors and premultiplied ARGB32 encoding (splashy.c lines 286-290) -/

/-- Truncating conversion of a C `double` expression to `unsigned char`,
as used when packing a `Color` into an ARGB32 pixel. -/
def toByte (x : ℚ) : ℕ := (Int.toNat ⌊x⌋) % 256

/-- The `Color` struct: four double channels in `[0,1]`. -/
structure Color where
  r : ℚ
  g : ℚ
  b : ℚ
  a : ℚ
deriving DecidableEq

/-- Premultiplied ARGB32 packing of a `Color`, as computed in `flood_fill`:
`a = color.a*255`, `r = color.r*color.a*255`, etc., packed `(a<<24)|(r<<16)|(g<<8)|b`.
Each byte is below 256, so the bit-or is a sum of disjoint bit ranges. -/
def premul (c : Color) : ℕ :=
  toByte (c.a * 255) * 16777216 + toByte (c.r * c.a * 255) * 65536 +
    toByte (c.g * c.a * 255) * 256 + toByte (c.b * c.a * 255)

/-! ## Raster surfaces -/

/-- Pixel store of an image surface: the 32-bit word at integer coordinates
`(x, y)`.  Coordinates are `ℤ` because the C code indexes with `int`. -/
abbrev Pix := ℤ → ℤ → ℕ

/-- `CAIRO_FORMAT_ARGB32` has enum value 0. -/
def ARGB32 : ℕ := 0

/-- A cairo image surface: pixel format, dimensions and pixel contents. -/
structure Surface where
  format : ℕ
  width : ℤ
  height : ℤ
  pix : Pix

/-- Bounds test used throughout `flood_fill`: `0 <= x < width && 0 <= y < height`. -/
abbrev inB (w h x y : ℤ) : Prop := 0 ≤ x ∧ x < w ∧ 0 ≤ y ∧ y < h

/-- Write pixel value `v` at point `p`, leaving every other pixel unchanged. -/
def setPix (g : Pix) (p : ℤ × ℤ) (v : ℕ) : Pix :=
  fun a b => if (a, b) = p then v else g a b

/-! ## Flood fill (splashy.c lines 269-321) -/

/-- The 4 axis neighbors of a pixel in the order the C loop visits them:
east, west, south, north (`dx = {1,-1,0,0}`, `dy = {0,0,1,-1}`). -/
def neighbors (p : ℤ × ℤ) : List (ℤ × ℤ) :=
  [(p.1 + 1, p.2), (p.1 - 1, p.2), (p.1, p.2 + 1), (p.1, p.2 - 1)]

/-- One neighbor examination inside the BFS loop: if the neighbor is in
bounds and currently holds the target color, recolor it and enqueue it. -/
def visit (w h : ℤ) (t f : ℕ) (st : Pix × List (ℤ × ℤ)) (n : ℤ × ℤ) :
    Pix × List (ℤ × ℤ) :=
  if inB w h n.1 n.2 ∧ st.1 n.1 n.2 = t then (setPix st.1 n f, st.2 ++ [n])
  else st

/-- Number of in-bounds pixels currently holding the target value. -/
def targetCount (w h : ℤ) (t : ℕ) (g : Pix) : ℕ :=
  ((Finset.Icc 0 (w - 1) ×ˢ Finset.Icc 0 (h - 1)).filter
    fun p : ℤ × ℤ => g p.1 p.2 = t).card

/-- Loop variant of the BFS: pending queue entries plus remaining
target-colored pixels.  Each loop iteration lowers it by exactly one. -/
def bfsMeasure (w h : ℤ) (t : ℕ) (g : Pix) (q : List (ℤ × ℤ)) : ℕ :=
  q.length + targetCount w h t g

/-- The BFS loop of `flood_fill`, with an explicit iteration budget.
Each pass pops the queue head and examines its four neighbors via `visit`. -/
def bfsAux (w h : ℤ) (t f : ℕ) : ℕ → Pix → List (ℤ × ℤ) → Pix
  | _, g, [] => g
  | 0, g, _ :: _ => g
  | fuel + 1, g, p :: rest =>
      let st := (neighbors p).foldl (visit w h t f) (g, rest)
      bfsAux w h t f fuel st.1 st.2

/-- The BFS loop run to completion: the iteration budget `bfsMeasure` is
exactly the number of iterations the C `while (head < tail)` loop performs
(when the fill value differs from the target), so the budgeted loop and the
C loop stop in the same state. -/
def bfs (w h : ℤ) (t f : ℕ) (g : Pix) (q : List (ℤ × ℤ)) : Pix :=
  bfsAux w h t f (bfsMeasure w h t g q) g q

/-- `flood_fill(surface, start_x, start_y, fill_color)`: reject non-ARGB32
surfaces and out-of-bounds seeds, read the seed pixel as the target, pack
the fill color, no-op when they already agree, otherwise recolor the seed,
enqueue it and run the BFS. -/
def flood_fill (s : Surface) (start_x start_y : ℤ) (fill_color : Color) : Surface :=
  if s.format ≠ ARGB32 then s
  else if start_x < 0 ∨ s.width ≤ start_x ∨ start_y < 0 ∨ s.height ≤ start_y then s
  else if s.pix start_x start_y = premul fill_color then s
  else
    { s with pix := (bfs s.width s.height (s.pix start_x start_y) (premul fill_color)
        (setPix s.pix (start_x, start_y) (premul fill_color)) [(start_x, start_y)]) }

/-! ## 4-connected components -/

/-- One admissible step of the fill: `b` is a 4-neighbor of `a`, lies in
bounds, and holds the target value in the original surface contents. -/
def StepRel (w h : ℤ) (orig : Pix) (t : ℕ) (a b : ℤ × ℤ) : Prop :=
  b ∈ neighbors a ∧ inB w h b.1 b.2 ∧ orig b.1 b.2 = t

/-- `p` belongs to the 4-connected component of the seed `z` among pixels
holding the target value `t` in the original contents `orig`. -/
def Conn (w h : ℤ) (orig : Pix) (t : ℕ) (z p : ℤ × ℤ) : Prop :=
  Relation.ReflTransGen (StepRel w h orig t) z p

/-- Loop invariant of the BFS: the seed is recolored; queued pixels are
recolored component members; component members are recolored or untouched;
pixels outside the component are untouched; and a recolored component
member that is no longer queued has all its component neighbors recolored. -/
structure BfsInv (w h : ℤ) (orig : Pix) (t f : ℕ) (z : ℤ × ℤ)
    (g : Pix) (q : List (ℤ × ℤ)) : Prop where
  seed_fill : g z.1 z.2 = f
  queue_ok : ∀ p ∈ q, Conn w h orig t z p ∧ g p.1 p.2 = f
  comp_or : ∀ p : ℤ × ℤ, Conn w h orig t z p → g p.1 p.2 = f ∨ g p.1 p.2 = t
  outside_eq : ∀ p : ℤ × ℤ, ¬ Conn w h orig t z p → g p.1 p.2 = orig p.1 p.2
  done_closed : ∀ p : ℤ × ℤ, Conn w h orig t z p → g p.1 p.2 = f → p ∉ q →
      ∀ n ∈ neighbors p, Conn w h orig t z n → g n.1 n.2 = f

/-- Mid-iteration variant of `BfsInv`: while the neighbors of the pixel
`c` just popped are being examined, the closure obligation is waived for `c`. -/
structure FoldInv (w h : ℤ) (orig : Pix) (t f : ℕ) (z c : ℤ × ℤ)
    (g : Pix) (q : List (ℤ × ℤ)) : Prop where
  seed_fill : g z.1 z.2 = f
  queue_ok : ∀ p ∈ q, Conn w h orig t z p ∧ g p.1 p.2 = f
  comp_or : ∀ p : ℤ × ℤ, Conn w h orig t z p → g p.1 p.2 = f ∨ g p.1 p.2 = t
  outside_eq : ∀ p : ℤ × ℤ, ¬ Conn w h orig t z p → g p.1 p.2 = orig p.1 p.2
  except_closed : ∀ p : ℤ × ℤ, Conn w h orig t z p → g p.1 p.2 = f → p ∉ q → p ≠ c →
      ∀ n ∈ neighbors p, Conn w h orig t z n → g n.1 n.2 = f

/-! ## Undo/redo history (splashy.c lines 28, 77-79, 167-226) -/

/-- `#define MAX_UNDO 100`. -/
def MAX_UNDO : ℤ := 100

/-- The history portion of `AppState`: the `undo_stack` array (a `none`
entry models a NULL slot), the two cursors, and the active layer surface
contents (`app->surface`), abstracted to an arbitrary snapshot type `α`. -/
structure Hist (α : Type) where
  stack : ℤ → Option α
  history_index : ℤ
  history_max : ℤ
  surface : α

/-- `save_history`: destroy the invalidated redo entries
`history_index+1 .. min(history_max, MAX_UNDO-1)`, shift the whole stack
down one slot when `history_index == MAX_UNDO-1` (evicting slot 0 and
decrementing the cursor), then append a snapshot of the active surface at
the incremented cursor and set `history_max` to it. -/
def save_history {α : Type} (app : Hist α) : Hist α :=
  let stack1 : ℤ → Option α := fun i =>
    if app.history_index + 1 ≤ i ∧ i ≤ app.history_max ∧ i < MAX_UNDO then none
    else app.stack i
  let stack2 : ℤ → Option α :=
    if app.history_index = MAX_UNDO - 1 then
      fun i => if 0 ≤ i ∧ i ≤ MAX_UNDO - 2 then stack1 (i + 1) else stack1 i
    else stack1
  let idx2 : ℤ :=
    if app.history_index = MAX_UNDO - 1 then app.history_index - 1
    else app.history_index
  let idx3 : ℤ := idx2 + 1
  { stack := fun i => if i = idx3 then some app.surface else stack2 i,
    history_index := idx3,
    history_max := idx3,
    surface := app.surface }

/-- `undo`: when `history_index > 0`, decrement it and overwrite the active
surface with the stored snapshot (a source-operator copy); otherwise no-op. -/
def undo {α : Type} (app : Hist α) : Hist α :=
  if 0 < app.history_index then
    { app with
      history_index := app.history_index - 1
      surface := (app.stack (app.history_index - 1)).getD app.surface }
  else app

/-- `redo`: when `history_index < history_max`, increment it and overwrite
the active surface with the stored snapshot; otherwise no-op. -/
def redo {α : Type} (app : Hist α) : Hist α :=
  if app.history_index < app.history_max then
    { app with
      history_index := app.history_index + 1
      surface := (app.stack (app.history_index + 1)).getD app.surface }
  else app

/-! ## View transform and zoom-to-cursor (splashy.c lines 551-590, 606-607) -/

/-- The view transform fields of `AppState`. -/
structure ViewT where
  offset_x : ℚ
  offset_y : ℚ
  scale : ℚ

/-- The Ctrl+scroll zoom update of `on_scroll`: `scale *= f`,
`offset = anchor - (anchor - offset) * f` on both axes, with the anchor at
the event position `(ax, ay)`. -/
def zoom_at (v : ViewT) (f ax ay : ℚ) : ViewT :=
  { scale := v.scale * f,
    offset_x := ax - (ax - v.offset_x) * f,
    offset_y := ay - (ay - v.offset_y) * f }

/-- Screen-to-world transform used by every pointer handler:
`((sx - offset_x)/scale, (sy - offset_y)/scale)`. -/
def worldFromScreen (v : ViewT) (sx sy : ℚ) : ℚ × ℚ :=
  ((sx - v.offset_x) / v.scale, (sy - v.offset_y) / v.scale)

/-! ## Layer creation and resize (splashy.c lines 325-387, 1105-1126) -/

/-- `cairo_image_surface_create(CAIRO_FORMAT_ARGB32, w, h)`: a fresh
surface with every pixel zero-initialized (fully transparent). -/
def new_image_surface (w h : ℤ) : Surface :=
  { format := ARGB32, width := w, height := h, pix := fun _ _ => 0 }

/-- `clear_surface(surface, col)`: the color argument is discarded
(`(void)col;`) and the surface is painted with `CAIRO_OPERATOR_CLEAR`,
setting every pixel to zero. -/
def clear_surface (s : Surface) (col : Color) : Surface :=
  { s with pix := fun _ _ => 0 }

/-- The surface of the very first default layer, as built by the initial
branch of `ensure_surface`: create then `clear_surface(..., background)`. -/
def first_layer_surface (background : Color) (w h : ℤ) : Surface :=
  clear_surface (new_image_surface w h) background

/-- The surface of a layer added later by `on_add_layer_clicked`:
create at the stack dimensions then `clear_surface(..., background)`. -/
def added_layer_surface (background : Color) (w h : ℤ) : Surface :=
  clear_surface (new_image_surface w h) background

/-- One layer surface after the grow branch of `ensure_surface`: a fresh
cleared surface of the new size with the old contents painted (default
over operator onto transparency, hence copied verbatim) at offset `(dx, dy)`. -/
def resize_layer_surface (old : Surface) (new_w new_h dx dy : ℤ)
    (background : Color) : Surface :=
  let base := clear_surface (new_image_surface new_w new_h) background
  { base with pix := fun x y =>
      if dx ≤ x ∧ x < dx + old.width ∧ dy ≤ y ∧ y < dy + old.height then
        old.pix (x - dx) (y - dy)
      else 0 }

/-! ## Stroke width and alpha per gesture phase (splashy.c 658-687, 855-897, 986-1024) -/

/-- The tool enum of splashy.c. -/
inductive Tool
  | pen
  | eraser
  | highlighter
  | bucket
  | selectTool
  | line
  | rectangleTool
  | circleTool
  | triangleTool
  | starTool
  | arrowTool
  | textTool
deriving DecidableEq

/-- Brush configuration fields of `AppState` read by the stroke handlers. -/
structure BrushCfg where
  current_alpha : ℚ
  background_alpha : ℚ
  brush_size : ℚ
  eraser_size : ℚ

/-- `(alpha, line width)` configured for the initial dot in
`on_button_press`: pen multiplies the width by the pressure (no floor),
highlighter uses alpha × 0.35 and width × 4, eraser uses the background
alpha and the fixed eraser size. -/
def stroke_press_params (t : Tool) (cfg : BrushCfg) (pressure : ℚ) : ℚ × ℚ :=
  if t = Tool.pen ∨ t = Tool.highlighter then
    if t = Tool.highlighter then
      (cfg.current_alpha * (35 / 100), cfg.brush_size * 4)
    else (cfg.current_alpha, cfg.brush_size * pressure)
  else (cfg.background_alpha, cfg.eraser_size)

/-- `(alpha, line width)` configured for a smoothed segment in
`on_motion_notify`: pen multiplies the width by the average pressure of the
two middle buffered points and floors the result at 1.0; highlighter and
eraser behave as at press time. -/
def stroke_motion_params (t : Tool) (cfg : BrushCfg) (p1 p2 : ℚ) : ℚ × ℚ :=
  if t = Tool.pen ∨ t = Tool.highlighter then
    if t = Tool.highlighter then
      (cfg.current_alpha * (35 / 100), cfg.brush_size * 4)
    else
      let width := cfg.brush_size * ((p1 + p2) / 2)
      (cfg.current_alpha, if width < 1 then 1 else width)
  else (cfg.background_alpha, cfg.eraser_size)

/-- `(alpha, line width)` configured for the final segment in
`on_button_release`: pen multiplies the width by the pressure of the last
buffered point (1.0 when the buffer is empty, no floor); highlighter and
eraser behave as at press time.  `pressures` lists the pressures of the
buffered points in order. -/
def stroke_release_params (t : Tool) (cfg : BrushCfg) (pressures : List ℚ) : ℚ × ℚ :=
  if t = Tool.pen ∨ t = Tool.highlighter then
    if t = Tool.highlighter then
      (cfg.current_alpha * (35 / 100), cfg.brush_size * 4)
    else (cfg.current_alpha, cfg.brush_size * (pressures.getLast?.getD 1))
  else (cfg.background_alpha, cfg.eraser_size)

/-! ## Select-tool marquee finalization (splashy.c lines 949-984) -/

/-- A layer sampled at world coordinates (the rasterizer behind cairo is an
external collaborator; region copy and region clear act pointwise). -/
abbrev WorldPix := ℚ → ℚ → ℕ

/-- Outcome of releasing a marquee drag. -/
structure MarqueeResult where
  sel_x : ℚ
  sel_y : ℚ
  sel_w : ℚ
  sel_h : ℚ
  has_selection : Bool
  selection_surf : Option WorldPix
  layer : WorldPix

/-- The marquee-finalize branch of `on_button_release` for the select tool:
normalize the dragged rectangle (`min` corner, absolute size); when both
sides exceed 1, copy the region out of the active layer into a new
selection buffer (source placed at `(-sel_x, -sel_y)`) and clear the region
from the layer with `CAIRO_OPERATOR_CLEAR`; otherwise make no selection and
leave the layer untouched. -/
def finalize_marquee (layer : WorldPix) (x1 y1 x2 y2 : ℚ) : MarqueeResult :=
  if 1 < |x2 - x1| ∧ 1 < |y2 - y1| then
    { sel_x := min x1 x2, sel_y := min y1 y2, sel_w := |x2 - x1|, sel_h := |y2 - y1|,
      has_selection := true,
      selection_surf := some (fun u v => layer (u + min x1 x2) (v + min y1 y2)),
      layer := fun u v =>
        if min x1 x2 ≤ u ∧ u < min x1 x2 + |x2 - x1|
            ∧ min y1 y2 ≤ v ∧ v < min y1 y2 + |y2 - y1| then 0
        else layer u v }
  else
    { sel_x := min x1 x2, sel_y := min y1 y2, sel_w := |x2 - x1|, sel_h := |y2 - y1|,
      has_selection := false, selection_surf := none, layer := layer }

/-! ## Project file loading (splashy.c lines 113-135, 148-154, 1312-1384) -/

/-- The parsed `ProjectHeader` struct. -/
structure ProjectHeader where
  magic : List ℕ
  version : ℤ
  width : ℤ
  height : ℤ
  layer_count : ℤ
  active_layer_index : ℤ
  bg_r : ℚ
  bg_g : ℚ
  bg_b : ℚ
  bg_a : ℚ
  page_type : ℤ
  offset_x : ℚ
  offset_y : ℚ
  scale : ℚ

/-- The 8 bytes `strncmp(header.magic, "SPLASHY", 8)` accepts:
`"SPLASHY"` followed by its NUL terminator. -/
def SPLASHY_MAGIC : List ℕ := [83, 80, 76, 65, 83, 72, 89, 0]

/-- A project file: `header = none` models an `fread` of the header failing
(file shorter than the header); `body` is the raw byte stream after it. -/
structure ProjFile where
  header : Option ProjectHeader
  body : List ℕ

/-- A layer as held by the layer list. -/
structure LayerM (α : Type) where
  visible : Bool
  alpha : ℚ
  surf : α
deriving DecidableEq

/-- The document state `load_project` reads or replaces. -/
structure DocM (α : Type) where
  layers : List (LayerM α)
  active_index : ℤ
  background_color : Color
  page_type : ℤ
  offset_x : ℚ
  offset_y : ℚ
  scale : ℚ
deriving DecidableEq

/-- Little-endian decoding of a byte list (host byte order of the format). -/
def decodeLE (bs : List ℕ) : ℕ := bs.foldr (fun b acc => b % 256 + 256 * acc) 0

/-- `fread(&size, 8, 1, fp)`: succeeds only when 8 bytes remain. -/
def readU64 (bs : List ℕ) : Option (ℕ × List ℕ) :=
  if 8 ≤ bs.length then some (decodeLE (bs.take 8), bs.drop 8) else none

/-- `fread(buf.data, 1, n, fp) == n`: succeeds only when n bytes remain. -/
def readBytes (n : ℕ) (bs : List ℕ) : Option (List ℕ × List ℕ) :=
  if n ≤ bs.length then some (bs.take n, bs.drop n) else none

/-- The layer-reading loop of `load_project`: for each of `layer_count`
iterations read a size field then that many blob bytes, decode the blob
into a fresh visible opaque layer, and stop early (`break`) on a short
read of either.  `dec` is the external PNG stream decoder. -/
def readLayers {α : Type} (dec : List ℕ → α) : ℕ → List ℕ → List (LayerM α)
  | 0, _ => []
  | n + 1, bs =>
    match readU64 bs with
    | none => []
    | some (size, rest) =>
      match readBytes size rest with
      | none => []
      | some (blob, rest2) => ⟨true, 1, dec blob⟩ :: readLayers dec n rest2

/-- `load_project`: bail out (document untouched) when the header read
fails or magic/version mismatch; otherwise overwrite the view/background
state, destroy every existing layer, run the layer-reading loop on the
remaining bytes, and point the active layer at the stored index (falling
back to the first layer when out of range). -/
def load_project {α : Type} (dec : List ℕ → α) (doc : DocM α) (f : ProjFile) :
    DocM α :=
  match f.header with
  | none => doc
  | some h =>
    if h.magic ≠ SPLASHY_MAGIC ∨ h.version ≠ 1 then doc
    else
      let layers := readLayers dec h.layer_count.toNat f.body
      let aidx : ℤ :=
        if 0 ≤ h.active_layer_index ∧ h.active_layer_index < (layers.length : ℤ)
        then h.active_layer_index else 0
      { layers := layers,
        active_index := aidx,
        background_color := { r := h.bg_r, g := h.bg_g, b := h.bg_b, a := h.bg_a },
        page_type := h.page_type,
        offset_x := h.offset_x,
        offset_y := h.offset_y,
        scale := h.scale }

/-! ## Concrete inputs used by the witness theorems -/

/-- A 2×2 ARGB32 surface whose pixel (0,0) differs from the rest. -/
def wSurf1 : Surface :=
  { format := ARGB32, width := 2, height := 2,
    pix := fun x y => if x = 0 ∧ y = 0 then 7 else 9 }

/-- Opaque black. -/
def wCol1 : Color := { r := 0, g := 0, b := 0, a := 1 }

/-- Opaque red. -/
def wCol6 : Color := { r := 1, g := 0, b := 0, a := 1 }

/-- A 1×1 ARGB32 surface already holding the premultiplied value of `wCol6`. -/
def wSurf6 : Surface :=
  { format := ARGB32, width := 1, height := 1, pix := fun _ _ => premul wCol6 }

/-- A 2×2 ARGB32 surface with all pixels zero. -/
def wSurf10 : Surface :=
  { format := ARGB32, width := 2, height := 2, pix := fun _ _ => 0 }

/-- A full history stack (cursor and top at slot `MAX_UNDO - 1`). -/
def wHist4 : Hist ℕ :=
  { stack := fun i => if 0 ≤ i ∧ i < 100 then some i.toNat else none,
    history_index := 99, history_max := 99, surface := 42 }

/-- A 4×4 surface with constant nonzero contents, used to exercise resize. -/
def wOld7 : Surface :=
  { format := ARGB32, width := 4, height := 4, pix := fun _ _ => 3 }

/-- An opaque blue background color. -/
def wBg7 : Color := { r := 0, g := 0, b := 1, a := 1 }

/-- A constant nonzero world-sampled layer. -/
def wLayer9 : WorldPix := fun _ _ => 7

/-- A trivial stand-in for the external PNG stream decoder. -/
def wdec : List ℕ → ℕ := fun _ => 0

/-- A live document with two layers and a black background. -/
def wdoc2 : DocM ℕ :=
  { layers := [⟨true, 1, 5⟩, ⟨true, 1, 6⟩],
    active_index := 0,
    background_color := { r := 0, g := 0, b := 0, a := 1 },
    page_type := 0, offset_x := 0, offset_y := 0, scale := 1 }

/-- A valid project header announcing two layers and a white background. -/
def wheader2 : ProjectHeader :=
  { magic := SPLASHY_MAGIC, version := 1, width := 4, height := 4,
    layer_count := 2, active_layer_index := 0,
    bg_r := 1, bg_g := 1, bg_b := 1, bg_a := 1, page_type := 0,
    offset_x := 0, offset_y := 0, scale := 1 }

/-- A project file whose second layer blob is truncated: the size field
announces 5 bytes but only 2 remain, so the layer loop short-reads. -/
def wfile2 : ProjFile :=
  { header := some wheader2,
    body := [2, 0, 0, 0, 0, 0, 0, 0, 10, 20, 5, 0, 0, 0, 0, 0, 0, 0, 1, 2] }

/-! ## Basic lemmas about pixel writes and connectivity -/

theorem setPix_self (g : Pix) (p : ℤ × ℤ) (v : ℕ) : setPix g p v p.1 p.2 = v := by
  simp [setPix]

theorem setPix_other (g : Pix) (p : ℤ × ℤ) (v : ℕ) (a b : ℤ) (h : (a, b) ≠ p) :
    setPix g p v a b = g a b := by
  simp [setPix, h]

theorem setPix_eq_or (g : Pix) (p : ℤ × ℤ) (v : ℕ) (a b : ℤ) :
    setPix g p v a b = v ∨ setPix g p v a b = g a b := by
  unfold setPix
  split
  · exact Or.inl rfl
  · exact Or.inr rfl

theorem setPix_keeps (g : Pix) (p : ℤ × ℤ) (v : ℕ) (a b : ℤ) (h : g a b = v) :
    setPix g p v a b = v := by
  rcases setPix_eq_or g p v a b with hc | hc
  · exact hc
  · exact hc.trans h

theorem pair_ne {p q : ℤ × ℤ} (h : p ≠ q) : ((p.1, p.2) : ℤ × ℤ) ≠ q := by
  simpa using h

theorem conn_inB_target {w h : ℤ} {orig : Pix} {t : ℕ} {z p : ℤ × ℤ}
    (hz : inB w h z.1 z.2) (hzt : orig z.1 z.2 = t)
    (hc : Conn w h orig t z p) : inB w h p.1 p.2 ∧ orig p.1 p.2 = t := by
  induction hc with
  | refl => exact ⟨hz, hzt⟩
  | tail _ hstep _ => exact ⟨hstep.2.1, hstep.2.2⟩

theorem mem_rect_iff {w h : ℤ} {p : ℤ × ℤ} :
    p ∈ Finset.Icc (0 : ℤ) (w - 1) ×ˢ Finset.Icc (0 : ℤ) (h - 1) ↔
      inB w h p.1 p.2 := by
  simp only [Finset.mem_product, Finset.mem_Icc, inB]
  omega

/-! ## The BFS loop variant decreases by one per iteration -/

theorem targetCount_setPix {w h : ℤ} {t f : ℕ} (hft : f ≠ t) (g : Pix)
    (n : ℤ × ℤ) (hn : inB w h n.1 n.2) (hg : g n.1 n.2 = t) :
    targetCount w h t (setPix g n f) + 1 = targetCount w h t g := by
  have hmem : n ∈ (Finset.Icc (0 : ℤ) (w - 1) ×ˢ Finset.Icc (0 : ℤ) (h - 1)).filter
      (fun p : ℤ × ℤ => g p.1 p.2 = t) := by
    rw [Finset.mem_filter, mem_rect_iff]
    exact ⟨hn, hg⟩
  have hset : ((Finset.Icc (0 : ℤ) (w - 1) ×ˢ Finset.Icc (0 : ℤ) (h - 1)).filter
        (fun p : ℤ × ℤ => setPix g n f p.1 p.2 = t))
      = ((Finset.Icc (0 : ℤ) (w - 1) ×ˢ Finset.Icc (0 : ℤ) (h - 1)).filter
        (fun p : ℤ × ℤ => g p.1 p.2 = t)).erase n := by
    ext p
    rw [Finset.mem_erase, Finset.mem_filter, Finset.mem_filter]
    constructor
    · rintro ⟨hp, hval⟩
      have hpn : p ≠ n := by
        rintro rfl
        rw [setPix_self] at hval
        exact hft hval
      rw [setPix_other _ _ _ _ _ (pair_ne hpn)] at hval
      exact ⟨hpn, hp, hval⟩
    · rintro ⟨hpn, hp, hval⟩
      rw [setPix_other _ _ _ _ _ (pair_ne hpn)]
      exact ⟨hp, hval⟩
  have hpos : 0 < ((Finset.Icc (0 : ℤ) (w - 1) ×ˢ Finset.Icc (0 : ℤ) (h - 1)).filter
      (fun p : ℤ × ℤ => g p.1 p.2 = t)).card := Finset.card_pos.mpr ⟨n, hmem⟩
  unfold targetCount
  rw [hset, Finset.card_erase_of_mem hmem]
  omega

theorem visit_measure {w h : ℤ} {t f : ℕ} (hft : f ≠ t)
    (st : Pix × List (ℤ × ℤ)) (n : ℤ × ℤ) :
    bfsMeasure w h t (visit w h t f st n).1 (visit w h t f st n).2
      = bfsMeasure w h t st.1 st.2 := by
  unfold visit
  split
  case isTrue hcond =>
    unfold bfsMeasure
    have hcount := targetCount_setPix hft st.1 n hcond.1 hcond.2
    simp only [List.length_append, List.length_cons, List.length_nil]
    omega
  case isFalse => rfl

theorem foldl_visit_measure {w h : ℤ} {t f : ℕ} (hft : f ≠ t)
    (ns : List (ℤ × ℤ)) (st : Pix × List (ℤ × ℤ)) :
    bfsMeasure w h t (ns.foldl (visit w h t f) st).1
        (ns.foldl (visit w h t f) st).2
      = bfsMeasure w h t st.1 st.2 := by
  induction ns generalizing st with
  | nil => rfl
  | cons n ns ih => rw [List.foldl_cons, ih, visit_measure hft]

/-! ## The BFS only ever writes the fill value -/

theorem visit_pix_mono {w h : ℤ} {t f : ℕ} (st : Pix × List (ℤ × ℤ))
    (n : ℤ × ℤ) (a b : ℤ) (hf : st.1 a b = f) :
    (visit w h t f st n).1 a b = f := by
  unfold visit
  split
  · exact setPix_keeps _ _ _ _ _ hf
  · exact hf

theorem foldl_visit_pix_mono {w h : ℤ} {t f : ℕ} (ns : List (ℤ × ℤ))
    (st : Pix × List (ℤ × ℤ)) (a b : ℤ) (hf : st.1 a b = f) :
    (ns.foldl (visit w h t f) st).1 a b = f := by
  induction ns generalizing st with
  | nil => exact hf
  | cons n ns ih => rw [List.foldl_cons]; exact ih _ (visit_pix_mono st n a b hf)

theorem bfsAux_pix_mono {w h : ℤ} {t f : ℕ} (fuel : ℕ) (g : Pix)
    (q : List (ℤ × ℤ)) (a b : ℤ) (hf : g a b = f) :
    bfsAux w h t f fuel g q a b = f := by
  induction fuel generalizing g q with
  | zero => cases q <;> exact hf
  | succ m ih =>
    cases q with
    | nil => exact hf
    | cons p rest => exact ih _ _ (foldl_visit_pix_mono (neighbors p) (g, rest) a b hf)

/-! ## The BFS invariant is preserved -/

theorem fold_visit_inv {w h : ℤ} {orig : Pix} {t f : ℕ} {z : ℤ × ℤ}
    (hz : inB w h z.1 z.2) (hzt : orig z.1 z.2 = t) (hft : f ≠ t)
    (c : ℤ × ℤ) (hcC : Conn w h orig t z c)
    (ns : List (ℤ × ℤ)) (hns : ∀ n ∈ ns, n ∈ neighbors c) :
    ∀ (g : Pix) (q : List (ℤ × ℤ)), FoldInv w h orig t f z c g q →
      FoldInv w h orig t f z c (ns.foldl (visit w h t f) (g, q)).1
        (ns.foldl (visit w h t f) (g, q)).2
      ∧ (∀ n ∈ ns, Conn w h orig t z n →
          (ns.foldl (visit w h t f) (g, q)).1 n.1 n.2 = f)
      ∧ (∀ a b : ℤ, g a b = f → (ns.foldl (visit w h t f) (g, q)).1 a b = f) := by
  induction ns with
  | nil =>
    intro g q hInv
    exact ⟨hInv, by simp, fun a b hf => hf⟩
  | cons n ns ih =>
    intro g q hInv
    rw [List.foldl_cons]
    have hnmem : n ∈ neighbors c := hns n (List.mem_cons_self n ns)
    have hns' : ∀ m ∈ ns, m ∈ neighbors c :=
      fun m hm => hns m (List.mem_cons_of_mem n hm)
    by_cases hcond : inB w h n.1 n.2 ∧ g n.1 n.2 = t
    · -- the neighbor is recolored and enqueued
      have hvis : visit w h t f (g, q) n = (setPix g n f, q ++ [n]) := by
        unfold visit
        rw [if_pos hcond]
      have horig : orig n.1 n.2 = t := by
        by_cases hcn : Conn w h orig t z n
        · exact (conn_inB_target hz hzt hcn).2
        · rw [← hInv.outside_eq n hcn]
          exact hcond.2
      have hconn : Conn w h orig t z n :=
        hcC.tail ⟨hnmem, hcond.1, horig⟩
      have hInv1 : FoldInv w h orig t f z c (setPix g n f) (q ++ [n]) := by
        refine ⟨?_, ?_, ?_, ?_, ?_⟩
        · exact setPix_keeps _ _ _ _ _ hInv.seed_fill
        · intro p hp
          rcases List.mem_append.mp hp with hp | hp
          · obtain ⟨hc1, hc2⟩ := hInv.queue_ok p hp
            exact ⟨hc1, setPix_keeps _ _ _ _ _ hc2⟩
          · rcases List.mem_singleton.mp hp with rfl
            exact ⟨hconn, setPix_self _ _ _⟩
        · intro p hp
          rcases setPix_eq_or g n f p.1 p.2 with hval | hval
          · exact Or.inl hval
          · rw [hval]
            exact hInv.comp_or p hp
        · intro p hp
          have hpn : p ≠ n := fun he => hp (he ▸ hconn)
          rw [setPix_other _ _ _ _ _ (pair_ne hpn)]
          exact hInv.outside_eq p hp
        · intro p hp hpf hpq hpc m hm hcm
          have hpn : p ≠ n := by
            rintro rfl
            exact hpq (List.mem_append.mpr (Or.inr (List.mem_singleton_self _)))
          rw [setPix_other _ _ _ _ _ (pair_ne hpn)] at hpf
          have hpq' : p ∉ q := fun hh => hpq (List.mem_append.mpr (Or.inl hh))
          exact setPix_keeps _ _ _ _ _
            (hInv.except_closed p hp hpf hpq' hpc m hm hcm)
      obtain ⟨hInv2, hmem2, hmono2⟩ := ih hns' (setPix g n f) (q ++ [n]) hInv1
      rw [hvis]
      refine ⟨hInv2, ?_, ?_⟩
      · intro m hm hcm
        rcases List.mem_cons.mp hm with rfl | hm
        · exact hmono2 m.1 m.2 (setPix_self _ _ _)
        · exact hmem2 m hm hcm
      · intro a b hf
        exact hmono2 a b (setPix_keeps _ _ _ _ _ hf)
    · -- the neighbor is skipped
      have hvis : visit w h t f (g, q) n = (g, q) := by
        unfold visit
        rw [if_neg hcond]
      obtain ⟨hInv2, hmem2, hmono2⟩ := ih hns' g q hInv
      rw [hvis]
      refine ⟨hInv2, ?_, hmono2⟩
      intro m hm hcm
      rcases List.mem_cons.mp hm with rfl | hm
      · -- a skipped neighbor in the component must already be recolored
        have hmB : inB w h m.1 m.2 := (conn_inB_target hz hzt hcm).1
        have hmt : orig m.1 m.2 = t := (conn_inB_target hz hzt hcm).2
        have hgm : g m.1 m.2 = f := by
          rcases hInv.comp_or m hcm with hval | hval
          · exact hval
          · exact absurd ⟨hmB, hval⟩ hcond
        exact hmono2 m.1 m.2 hgm
      · exact hmem2 m hm hcm

theorem bfs_pop_inv {w h : ℤ} {orig : Pix} {t f : ℕ} {z : ℤ × ℤ}
    (hz : inB w h z.1 z.2) (hzt : orig z.1 z.2 = t) (hft : f ≠ t)
    (g : Pix) (p : ℤ × ℤ) (rest : List (ℤ × ℤ))
    (hInv : BfsInv w h orig t f z g (p :: rest)) :
    BfsInv w h orig t f z ((neighbors p).foldl (visit w h t f) (g, rest)).1
      ((neighbors p).foldl (visit w h t f) (g, rest)).2 := by
  have hp := hInv.queue_ok p (List.mem_cons_self p rest)
  have hFold : FoldInv w h orig t f z p g rest := by
    refine ⟨hInv.seed_fill, ?_, hInv.comp_or, hInv.outside_eq, ?_⟩
    · exact fun q hq => hInv.queue_ok q (List.mem_cons_of_mem p hq)
    · intro q hq hqf hqrest hqp m hm hcm
      have hqmem : q ∉ p :: rest := by
        intro hh
        rcases List.mem_cons.mp hh with hh | hh
        · exact hqp hh
        · exact hqrest hh
      exact hInv.done_closed q hq hqf hqmem m hm hcm
  obtain ⟨hInv2, hclosure, hmono⟩ :=
    fold_visit_inv hz hzt hft p hp.1 (neighbors p) (fun n hn => hn) g rest hFold
  refine ⟨hInv2.seed_fill, hInv2.queue_ok, hInv2.comp_or, hInv2.outside_eq, ?_⟩
  intro q hq hqf hqmem m hm hcm
  by_cases hqp : q = p
  · subst hqp
    exact hclosure m hm hcm
  · exact hInv2.except_closed q hq hqf hqmem hqp m hm hcm

/-! ## From the invariant at an empty queue to the component being filled -/

theorem inv_filled_of_empty {w h : ℤ} {orig : Pix} {t f : ℕ} {z : ℤ × ℤ}
    (g : Pix) (hInv : BfsInv w h orig t f z g []) :
    ∀ p : ℤ × ℤ, Conn w h orig t z p → g p.1 p.2 = f := by
  intro p hc
  induction hc with
  | refl => exact hInv.seed_fill
  | tail hzb hstep ih =>
    exact hInv.done_closed _ hzb ih (List.not_mem_nil _) _ hstep.1 (hzb.tail hstep)

/-! ## Main BFS correctness -/

theorem bfsAux_correct {w h : ℤ} {orig : Pix} {t f : ℕ} {z : ℤ × ℤ}
    (hz : inB w h z.1 z.2) (hzt : orig z.1 z.2 = t) (hft : f ≠ t) :
    ∀ (fuel : ℕ) (g : Pix) (q : List (ℤ × ℤ)),
      bfsMeasure w h t g q ≤ fuel → BfsInv w h orig t f z g q →
      (∀ p : ℤ × ℤ, Conn w h orig t z p → bfsAux w h t f fuel g q p.1 p.2 = f)
      ∧ (∀ p : ℤ × ℤ, ¬ Conn w h orig t z p →
          bfsAux w h t f fuel g q p.1 p.2 = orig p.1 p.2) := by
  intro fuel
  induction fuel with
  | zero =>
    intro g q hm hInv
    have hq : q = [] := by
      cases q with
      | nil => rfl
      | cons a l =>
        exfalso
        unfold bfsMeasure at hm
        simp at hm
    subst hq
    exact ⟨inv_filled_of_empty g hInv, hInv.outside_eq⟩
  | succ m ih =>
    intro g q hm hInv
    cases q with
    | nil => exact ⟨inv_filled_of_empty g hInv, hInv.outside_eq⟩
    | cons p rest =>
      have hmeas : bfsMeasure w h t
          ((neighbors p).foldl (visit w h t f) (g, rest)).1
          ((neighbors p).foldl (visit w h t f) (g, rest)).2 ≤ m := by
        rw [foldl_visit_measure hft]
        show bfsMeasure w h t g rest ≤ m
        unfold bfsMeasure at hm ⊢
        simp only [List.length_cons] at hm
        omega
      exact ih _ _ hmeas (bfs_pop_inv hz hzt hft g p rest hInv)

/-! ## Claim theorems: flood fill -/

/-- Claim C1: for every ARGB32 surface, in-bounds seed pixel and fill color
whose premultiplied encoding differs from the seed pixel's current value,
`flood_fill` recolors exactly the 4-connected component of the seed among
pixels equal to the seed's original value: every component pixel ends up
holding the premultiplied fill value, and every pixel outside the component
keeps its previous value bit for bit. -/
theorem flood_fill_fills_component (s : Surface) (x y : ℤ) (c : Color)
    (hfmt : s.format = ARGB32) (hin : inB s.width s.height x y)
    (hne : premul c ≠ s.pix x y) :
    (∀ p : ℤ × ℤ, Conn s.width s.height s.pix (s.pix x y) (x, y) p →
        (flood_fill s x y c).pix p.1 p.2 = premul c)
    ∧ (∀ p : ℤ × ℤ, ¬ Conn s.width s.height s.pix (s.pix x y) (x, y) p →
        (flood_fill s x y c).pix p.1 p.2 = s.pix p.1 p.2) := by
  obtain ⟨hx0, hxw, hy0, hyh⟩ := hin
  have h1 : ¬ s.format ≠ ARGB32 := by simp [hfmt]
  have h2 : ¬ (x < 0 ∨ s.width ≤ x ∨ y < 0 ∨ s.height ≤ y) := by
    push_neg
    exact ⟨hx0, hxw, hy0, hyh⟩
  have h3 : ¬ s.pix x y = premul c := fun hh => hne hh.symm
  unfold flood_fill
  rw [if_neg h1, if_neg h2, if_neg h3]
  dsimp only
  unfold bfs
  have hzin : inB s.width s.height ((x, y) : ℤ × ℤ).1 ((x, y) : ℤ × ℤ).2 :=
    ⟨hx0, hxw, hy0, hyh⟩
  have hInit : BfsInv s.width s.height s.pix (s.pix x y) (premul c) (x, y)
      (setPix s.pix (x, y) (premul c)) [(x, y)] := by
    refine ⟨setPix_self _ _ _, ?_, ?_, ?_, ?_⟩
    · intro p hp
      rcases List.mem_singleton.mp hp with rfl
      exact ⟨Relation.ReflTransGen.refl, setPix_self _ _ _⟩
    · intro p hp
      by_cases hpz : p = ((x, y) : ℤ × ℤ)
      · subst hpz
        exact Or.inl (setPix_self _ _ _)
      · rw [setPix_other _ _ _ _ _ (pair_ne hpz)]
        exact Or.inr (conn_inB_target hzin rfl hp).2
    · intro p hp
      have hpz : p ≠ ((x, y) : ℤ × ℤ) := by
        rintro rfl
        exact hp Relation.ReflTransGen.refl
      exact setPix_other _ _ _ _ _ (pair_ne hpz)
    · intro p hp hpf hpq
      exfalso
      have hpz : p ≠ ((x, y) : ℤ × ℤ) := by
        rintro rfl
        exact hpq (List.mem_singleton_self _)
      rw [setPix_other _ _ _ _ _ (pair_ne hpz)] at hpf
      have hpt := (conn_inB_target hzin rfl hp).2
      exact hne (hpf.symm.trans hpt)
  obtain ⟨hfill, hout⟩ := bfsAux_correct hzin rfl hne
    (bfsMeasure s.width s.height (s.pix x y)
      (setPix s.pix (x, y) (premul c)) [(x, y)])
    (setPix s.pix (x, y) (premul c)) [(x, y)] (le_refl _) hInit
  exact ⟨hfill, hout⟩

/-- Witness for C1 at a concrete 2×2 surface and opaque black fill. -/
theorem flood_fill_fills_component_witness :
    (wSurf1.format = ARGB32 ∧ inB wSurf1.width wSurf1.height 0 0
        ∧ premul wCol1 ≠ wSurf1.pix 0 0)
    ∧ ((∀ p : ℤ × ℤ,
          Conn wSurf1.width wSurf1.height wSurf1.pix (wSurf1.pix 0 0) (0, 0) p →
          (flood_fill wSurf1 0 0 wCol1).pix p.1 p.2 = premul wCol1)
      ∧ (∀ p : ℤ × ℤ,
          ¬ Conn wSurf1.width wSurf1.height wSurf1.pix (wSurf1.pix 0 0) (0, 0) p →
          (flood_fill wSurf1 0 0 wCol1).pix p.1 p.2 = wSurf1.pix p.1 p.2)) :=
  ⟨⟨rfl, by decide, by norm_num [premul, toByte, wCol1, wSurf1]; decide⟩,
    flood_fill_fills_component wSurf1 0 0 wCol1 rfl (by decide)
      (by norm_num [premul, toByte, wCol1, wSurf1]; decide)⟩

/-- Claim C6: when the in-bounds seed pixel already equals the premultiplied
fill value, `flood_fill` returns the surface unchanged; consequently the
fill is idempotent — running the same call twice equals running it once. -/
theorem flood_fill_fixed_point (s : Surface) (x y : ℤ) (c : Color) :
    (inB s.width s.height x y → s.pix x y = premul c → flood_fill s x y c = s)
    ∧ flood_fill (flood_fill s x y c) x y c = flood_fill s x y c := by
  constructor
  · intro hin heq
    unfold flood_fill
    by_cases h1 : s.format ≠ ARGB32
    · rw [if_pos h1]
    · rw [if_neg h1]
      by_cases h2 : x < 0 ∨ s.width ≤ x ∨ y < 0 ∨ s.height ≤ y
      · rw [if_pos h2]
      · rw [if_neg h2, if_pos heq]
  · by_cases h1 : s.format ≠ ARGB32
    · have e : flood_fill s x y c = s := by
        unfold flood_fill
        rw [if_pos h1]
      simp only [e]
    · by_cases h2 : x < 0 ∨ s.width ≤ x ∨ y < 0 ∨ s.height ≤ y
      · have e : flood_fill s x y c = s := by
          unfold flood_fill
          rw [if_neg h1, if_pos h2]
        simp only [e]
      · by_cases h3 : s.pix x y = premul c
        · have e : flood_fill s x y c = s := by
            unfold flood_fill
            rw [if_neg h1, if_neg h2, if_pos h3]
          simp only [e]
        · have hseed : (flood_fill s x y c).pix x y = premul c := by
            unfold flood_fill
            rw [if_neg h1, if_neg h2, if_neg h3]
            dsimp only
            unfold bfs
            exact bfsAux_pix_mono _ _ _ x y
              (setPix_self s.pix ((x, y) : ℤ × ℤ) (premul c))
          have hfmt2 : (flood_fill s x y c).format = s.format := by
            unfold flood_fill
            rw [if_neg h1, if_neg h2, if_neg h3]
          have hw2 : (flood_fill s x y c).width = s.width := by
            unfold flood_fill
            rw [if_neg h1, if_neg h2, if_neg h3]
          have hh2 : (flood_fill s x y c).height = s.height := by
            unfold flood_fill
            rw [if_neg h1, if_neg h2, if_neg h3]
          set r := flood_fill s x y c with hr
          unfold flood_fill
          rw [if_neg (show ¬ r.format ≠ ARGB32 by rw [hfmt2]; exact h1),
            if_neg (show ¬ (x < 0 ∨ r.width ≤ x ∨ y < 0 ∨ r.height ≤ y) by
              rw [hw2, hh2]; exact h2),
            if_pos hseed]

/-- Witness for C6 at a concrete 1×1 surface already holding the fill value. -/
theorem flood_fill_fixed_point_witness :
    (inB wSurf6.width wSurf6.height 0 0 ∧ wSurf6.pix 0 0 = premul wCol6)
    ∧ flood_fill wSurf6 0 0 wCol6 = wSurf6 :=
  ⟨⟨by decide, rfl⟩, (flood_fill_fixed_point wSurf6 0 0 wCol6).1 (by decide) rfl⟩

/-- Claim C10: a seed outside the surface bounds or a surface whose format
is not ARGB32 makes `flood_fill` a total silent no-op: the surface is
returned unchanged. -/
theorem flood_fill_rejects_invalid (s : Surface) (x y : ℤ) (c : Color)
    (h : s.format ≠ ARGB32 ∨ x < 0 ∨ s.width ≤ x ∨ y < 0 ∨ s.height ≤ y) :
    flood_fill s x y c = s := by
  unfold flood_fill
  rcases h with h | h
  · rw [if_pos h]
  · by_cases h1 : s.format ≠ ARGB32
    · rw [if_pos h1]
    · rw [if_neg h1, if_pos h]

/-- Witness for C10 at a concrete surface with an out-of-bounds seed. -/
theorem flood_fill_rejects_invalid_witness :
    (wSurf10.format ≠ ARGB32 ∨ (5 : ℤ) < 0 ∨ wSurf10.width ≤ 5 ∨ (0 : ℤ) < 0
        ∨ wSurf10.height ≤ 0)
    ∧ flood_fill wSurf10 5 0 wCol1 = wSurf10 :=
  ⟨Or.inr (Or.inr (Or.inl (by decide))),
    flood_fill_rejects_invalid wSurf10 5 0 wCol1
      (Or.inr (Or.inr (Or.inl (by decide))))⟩

/-! ## Claim theorems: history stack -/

/-- Claim C3: after push, push, undo, push the cursor equals the redo top
(`history_index = history_max`), so a subsequent `redo` is a no-op — the
state saved by the second push is unreachable. -/
theorem push_after_undo_discards_redo (α : Type) (a : Hist α) :
    (save_history (undo (save_history (save_history a)))).history_index
      = (save_history (undo (save_history (save_history a)))).history_max
    ∧ redo (save_history (undo (save_history (save_history a))))
      = save_history (undo (save_history (save_history a))) := by
  refine ⟨rfl, ?_⟩
  have hx : (save_history (undo (save_history (save_history a)))).history_index
      = (save_history (undo (save_history (save_history a)))).history_max := rfl
  unfold redo
  rw [if_neg (by rw [hx]; exact lt_irrefl _)]

/-- Claim C4: pushing onto a full history stack evicts only the oldest
entry: every surviving slot shifts down one place in order, the new
snapshot lands in the top slot, `history_max - history_index` is preserved,
and `history_index` never exceeds `MAX_UNDO - 1`. -/
theorem save_history_capacity_eviction (α : Type) (a : Hist α)
    (hidx : a.history_index = MAX_UNDO - 1) (hmax : a.history_max = MAX_UNDO - 1) :
    (save_history a).history_index = MAX_UNDO - 1
    ∧ (save_history a).history_max - (save_history a).history_index
        = a.history_max - a.history_index
    ∧ (∀ i : ℤ, 0 ≤ i → i ≤ MAX_UNDO - 2 → (save_history a).stack i = a.stack (i + 1))
    ∧ (save_history a).stack (MAX_UNDO - 1) = some a.surface
    ∧ (∀ b : Hist α, b.history_index ≤ MAX_UNDO - 1 →
        (save_history b).history_index ≤ MAX_UNDO - 1) := by
  refine ⟨?_, ?_, ?_, ?_, ?_⟩
  · simp only [save_history, hidx, MAX_UNDO]
    norm_num
  · simp [save_history, hidx, hmax]
  · intro i h0 h2
    simp only [save_history, hidx, hmax, MAX_UNDO] at h2 ⊢
    norm_num at h2 ⊢
    split_ifs <;> first | rfl | omega
  · simp only [save_history, hidx, hmax, MAX_UNDO]
    norm_num
  · intro b hb
    simp only [save_history, MAX_UNDO] at hb ⊢
    split_ifs <;> omega

/-- Witness for C4 at a concrete full history stack over `ℕ` snapshots. -/
theorem save_history_capacity_eviction_witness :
    (wHist4.history_index = MAX_UNDO - 1 ∧ wHist4.history_max = MAX_UNDO - 1)
    ∧ ((save_history wHist4).history_index = MAX_UNDO - 1
      ∧ (save_history wHist4).history_max - (save_history wHist4).history_index
          = wHist4.history_max - wHist4.history_index
      ∧ (∀ i : ℤ, 0 ≤ i → i ≤ MAX_UNDO - 2 →
          (save_history wHist4).stack i = wHist4.stack (i + 1))
      ∧ (save_history wHist4).stack (MAX_UNDO - 1) = some wHist4.surface
      ∧ (∀ b : Hist ℕ, b.history_index ≤ MAX_UNDO - 1 →
          (save_history b).history_index ≤ MAX_UNDO - 1)) :=
  ⟨⟨by decide, by decide⟩,
    save_history_capacity_eviction ℕ wHist4 (by decide) (by decide)⟩

/-! ## Claim theorems: zoom-to-cursor -/

/-- Claim C5: with nonzero scale and zoom factor, the world coordinate of
the anchor screen point is unchanged by the zoom-anchored view update —
over exact arithmetic the anchor is a fixed point of `worldFromScreen`. -/
theorem zoom_preserves_anchor_world (v : ViewT) (f ax ay : ℚ)
    (hs : v.scale ≠ 0) (hf : f ≠ 0) :
    worldFromScreen (zoom_at v f ax ay) ax ay = worldFromScreen v ax ay := by
  unfold worldFromScreen zoom_at
  simp only [Prod.mk.injEq]
  constructor
  · field_simp
    ring
  · field_simp
    ring

/-- Witness for C5 at a concrete view, zoom factor and anchor. -/
theorem zoom_preserves_anchor_world_witness :
    ((⟨5, 7, 2⟩ : ViewT).scale ≠ 0 ∧ (3 : ℚ) ≠ 0)
    ∧ worldFromScreen (zoom_at ⟨5, 7, 2⟩ 3 10 20) 10 20
        = worldFromScreen ⟨5, 7, 2⟩ 10 20 :=
  ⟨⟨by norm_num, by norm_num⟩,
    zoom_preserves_anchor_world ⟨5, 7, 2⟩ 3 10 20 (by norm_num) (by norm_num)⟩

/-! ## Claim theorems: layer creation clearing -/

/-- Counterexample to claim C7: the very first default layer is NOT cleared
to the document background color — `clear_surface` ignores its color
argument, so with an opaque white background the created layer pixel is 0
(fully transparent) while the premultiplied background value is nonzero. -/
theorem first_layer_background_clear_refuted :
    (first_layer_surface { r := 1, g := 1, b := 1, a := 1 } 4 4).pix 0 0 = 0
    ∧ premul { r := 1, g := 1, b := 1, a := 1 } ≠ 0 := by
  constructor
  · rfl
  · norm_num [premul, toByte]
    decide

/-- Claim C7 as amended: every layer surface — the first default layer
included — is cleared to fully transparent at creation, and the area a
resize introduces outside the translated old contents is transparent too;
the background color is never baked into a layer. -/
theorem layer_surfaces_created_transparent (bg : Color) (w h x y : ℤ) :
    (first_layer_surface bg w h).pix x y = 0
    ∧ (added_layer_surface bg w h).pix x y = 0
    ∧ ∀ (old : Surface) (nw nh dx dy : ℤ),
        ¬ (dx ≤ x ∧ x < dx + old.width ∧ dy ≤ y ∧ y < dy + old.height) →
        (resize_layer_surface old nw nh dx dy bg).pix x y = 0 := by
  refine ⟨rfl, rfl, ?_⟩
  intro old nw nh dx dy hout
  unfold resize_layer_surface
  dsimp only
  rw [if_neg hout]

/-- Witness for C7 (amended) on the resize conjunct at concrete data. -/
theorem layer_surfaces_created_transparent_witness :
    (¬ ((1 : ℤ) ≤ 9 ∧ (9 : ℤ) < 1 + wOld7.width ∧ (1 : ℤ) ≤ 9
        ∧ (9 : ℤ) < 1 + wOld7.height))
    ∧ (resize_layer_surface wOld7 8 8 1 1 wBg7).pix 9 9 = 0 :=
  ⟨by decide,
    (layer_surfaces_created_transparent wBg7 8 8 9 9).2.2 wOld7 8 8 1 1 (by decide)⟩

/-! ## Claim theorems: stroke width and alpha -/

/-- Counterexample to claim C8: the initial dot of a pen stroke uses width
`brush_size * pressure` with NO floor at 1.0 — at brush size 4 and pressure
1/10 the configured width is 2/5, not the claimed `max (4 * (1/10)) 1 = 1`. -/
theorem pen_press_width_unfloored :
    (stroke_press_params Tool.pen
        { current_alpha := 1, background_alpha := 1, brush_size := 4,
          eraser_size := 10 } (1 / 10)).2 = 2 / 5
    ∧ ((2 : ℚ) / 5) ≠ max ((4 : ℚ) * (1 / 10)) 1 := by
  have hph : Tool.pen ≠ Tool.highlighter := by decide
  constructor
  · norm_num [stroke_press_params, hph]
  · rw [max_eq_right (by norm_num : (4 : ℚ) * (1 / 10) ≤ 1)]
    norm_num

/-- Claim C8 as amended: only the smoothed mid-stroke segments floor the
pen width at 1.0 (width `brush_size * (p1 + p2) / 2`, the average pressure
of the two middle buffered points, floored); the initial dot uses
`brush_size * pressure` unfloored, and the final segment uses
`brush_size *` the last buffered pressure — 1.0 when the buffer is empty —
unfloored; the highlighter ignores pressure in all three phases, with width
`brush_size * 4` and alpha multiplied by 0.35. -/
theorem stroke_width_alpha_rules (cfg : BrushCfg) (p p1 p2 : ℚ) (ps : List ℚ) :
    stroke_press_params Tool.pen cfg p = (cfg.current_alpha, cfg.brush_size * p)
    ∧ stroke_motion_params Tool.pen cfg p1 p2
        = (cfg.current_alpha,
            if cfg.brush_size * ((p1 + p2) / 2) < 1 then 1
            else cfg.brush_size * ((p1 + p2) / 2))
    ∧ stroke_release_params Tool.pen cfg (ps ++ [p])
        = (cfg.current_alpha, cfg.brush_size * p)
    ∧ stroke_release_params Tool.pen cfg []
        = (cfg.current_alpha, cfg.brush_size * 1)
    ∧ stroke_press_params Tool.highlighter cfg p
        = (cfg.current_alpha * (35 / 100), cfg.brush_size * 4)
    ∧ stroke_motion_params Tool.highlighter cfg p1 p2
        = (cfg.current_alpha * (35 / 100), cfg.brush_size * 4)
    ∧ stroke_release_params Tool.highlighter cfg ps
        = (cfg.current_alpha * (35 / 100), cfg.brush_size * 4) := by
  have hph : Tool.pen ≠ Tool.highlighter := by decide
  refine ⟨?_, ?_, ?_, ?_, ?_, ?_, ?_⟩
  · simp [stroke_press_params, hph]
  · simp [stroke_motion_params, hph]
  · simp [stroke_release_params, hph]
  · simp [stroke_release_params, hph]
  · simp [stroke_press_params]
  · simp [stroke_motion_params]
  · simp [stroke_release_params]

/-! ## Claim theorems: marquee finalization -/

/-- Counterexample to claim C9: a normalized 1×1 rectangle (claimed to be
"at least 1×1" and hence cut into a selection) produces NO selection — the
code requires both sides strictly greater than 1 — and leaves the layer
unchanged. -/
theorem marquee_unit_rect_no_selection :
    (finalize_marquee wLayer9 0 0 1 1).sel_w = 1
    ∧ (finalize_marquee wLayer9 0 0 1 1).sel_h = 1
    ∧ (1 : ℚ) ≥ 1
    ∧ (finalize_marquee wLayer9 0 0 1 1).has_selection = false
    ∧ (finalize_marquee wLayer9 0 0 1 1).layer = wLayer9 := by
  have hcond : ¬ ((1 : ℚ) < |(1 : ℚ) - 0| ∧ (1 : ℚ) < |(1 : ℚ) - 0|) := by norm_num
  unfold finalize_marquee
  rw [if_neg hcond]
  exact ⟨by norm_num, by norm_num, le_refl 1, rfl, rfl⟩

/-- Claim C9 as amended: on marquee release the rectangle is normalized to
origin `(min x, min y)` and size `(|dx|, |dy|)`; when both sides strictly
exceed 1 the region is cut — copied into a fresh selection buffer and
cleared to transparent in the layer — and otherwise (width or height ≤ 1)
no selection is created and the layer is untouched. -/
theorem finalize_marquee_rules (layer : WorldPix) (x1 y1 x2 y2 : ℚ) :
    (finalize_marquee layer x1 y1 x2 y2).sel_x = min x1 x2
    ∧ (finalize_marquee layer x1 y1 x2 y2).sel_y = min y1 y2
    ∧ (finalize_marquee layer x1 y1 x2 y2).sel_w = |x2 - x1|
    ∧ (finalize_marquee layer x1 y1 x2 y2).sel_h = |y2 - y1|
    ∧ (1 < |x2 - x1| ∧ 1 < |y2 - y1| →
        (finalize_marquee layer x1 y1 x2 y2).has_selection = true
        ∧ (finalize_marquee layer x1 y1 x2 y2).selection_surf
            = some (fun u v => layer (u + min x1 x2) (v + min y1 y2))
        ∧ ∀ u v : ℚ, (finalize_marquee layer x1 y1 x2 y2).layer u v
            = if min x1 x2 ≤ u ∧ u < min x1 x2 + |x2 - x1|
                ∧ min y1 y2 ≤ v ∧ v < min y1 y2 + |y2 - y1| then 0
              else layer u v)
    ∧ (¬ (1 < |x2 - x1| ∧ 1 < |y2 - y1|) →
        (finalize_marquee layer x1 y1 x2 y2).has_selection = false
        ∧ (finalize_marquee layer x1 y1 x2 y2).selection_surf = none
        ∧ (finalize_marquee layer x1 y1 x2 y2).layer = layer) := by
  unfold finalize_marquee
  by_cases hc : 1 < |x2 - x1| ∧ 1 < |y2 - y1|
  · rw [if_pos hc]
    exact ⟨rfl, rfl, rfl, rfl,
      fun _ => ⟨rfl, rfl, fun u v => rfl⟩,
      fun hcon => absurd hc hcon⟩
  · rw [if_neg hc]
    exact ⟨rfl, rfl, rfl, rfl,
      fun hcon => absurd hcon hc,
      fun _ => ⟨rfl, rfl, rfl⟩⟩

/-- Witness for C9 (amended) at a concrete 3×3 marquee over a constant layer. -/
theorem finalize_marquee_rules_witness :
    ((1 : ℚ) < |(3 : ℚ) - 0| ∧ (1 : ℚ) < |(3 : ℚ) - 0|)
    ∧ ((finalize_marquee wLayer9 0 0 3 3).has_selection = true
      ∧ (finalize_marquee wLayer9 0 0 3 3).selection_surf
          = some (fun u v => wLayer9 (u + min 0 3) (v + min 0 3))
      ∧ ∀ u v : ℚ, (finalize_marquee wLayer9 0 0 3 3).layer u v
          = if min (0 : ℚ) 3 ≤ u ∧ u < min (0 : ℚ) 3 + |(3 : ℚ) - 0|
              ∧ min (0 : ℚ) 3 ≤ v ∧ v < min (0 : ℚ) 3 + |(3 : ℚ) - 0| then 0
            else wLayer9 u v) :=
  ⟨⟨by norm_num, by norm_num⟩,
    (finalize_marquee_rules wLayer9 0 0 3 3).2.2.2.2.1 ⟨by norm_num, by norm_num⟩⟩

/-! ## Claim theorems: project loading -/

/-- Claim C2 is violated by the code (code bug): on the concrete file
`wfile2` — valid magic and version, two declared layers, second blob
truncated (its size field says 5 bytes but only 2 remain, so `readBytes`
short-reads) — `load_project` does not leave the document unchanged: the
layer list has been replaced by the truncated one-layer prefix and the
background color has already been overwritten from the header. -/
theorem load_project_short_read_corrupts :
    readBytes 5 [1, 2] = none
    ∧ (load_project wdec wdoc2 wfile2).layers.length = 1
    ∧ wdoc2.layers.length = 2
    ∧ (load_project wdec wdoc2 wfile2).background_color ≠ wdoc2.background_color
    ∧ load_project wdec wdoc2 wfile2 ≠ wdoc2 := by
  refine ⟨rfl, rfl, rfl, ?_, ?_⟩
  · intro hcon
    have h1 : (load_project wdec wdoc2 wfile2).background_color.r = 1 := rfl
    rw [hcon] at h1
    exact absurd h1 (by norm_num [wdoc2])
  · intro hcon
    have h1 : (load_project wdec wdoc2 wfile2).layers.length = 1 := rfl
    rw [hcon] at h1
    exact absurd h1 (by decide)

end Splashy
